import Mathlib

/-!
Shallow embedding of the transducist transformation core
(`src/transducers.ts`) in Lean 4, together with theorems checking the
natural-language specification against it.

Conventions of the embedding:
* JS mutation of a transformer's private instance fields (`this.i`,
  `this.isStarted`, `this.buffer`) is modelled by explicit state passing:
  a step of such a stage takes the instance state and returns the updated
  instance state alongside its `MaybeReduced` result.
* Accumulator-carried state (`DedupeState`, `DropWhileState`,
  `TakeNthState`, `PartitionByState`) is modelled by structures mirroring
  the TypeScript interfaces.
* The private "unset" sentinel objects (`{}` in `Dedupe`, the
  `INITIAL_LAST_KEY` object in `PartitionBy`) are freshly allocated and
  never escape, so no input can be reference-equal to them; they are
  modelled by `Option.none`.
* Stages are parametric in the downstream transformer's operations
  (`xfStep`, `xfResult`, `xfInit`), mirroring the `xf` field.
-/

namespace Transducist

/-- The reduction signal (`MaybeReduced<T> = T | Reduced<T>` in
`src/types.ts`): either a plain accumulator or one wrapped as terminal. -/
inductive MaybeReduced (α : Type u) : Type u where
  | plain : α → MaybeReduced α
  | reduced : α → MaybeReduced α
deriving Repr, DecidableEq

/-- Modelled from the spec: `isReduced` from the util module (not in
`src/`); tests the "done" flag of a reduction signal (§4.1). -/
def isReduced : MaybeReduced α → Bool
  | .plain _ => false
  | .reduced _ => true

/-- Modelled from the spec: `unreduced` from the util module (not in
`src/`); returns the underlying value whether or not signaled (§4.1). -/
def unreduced : MaybeReduced α → α
  | .plain a => a
  | .reduced a => a

/-- Modelled from the spec: `ensureReduced` from the util module (not in
`src/`); idempotent — returns its argument unchanged if already signaled,
else wraps it (§4.1). -/
def ensureReduced : MaybeReduced α → MaybeReduced α
  | .plain a => .reduced a
  | .reduced a => .reduced a

/-- `updateValue` from `src/transducers.ts`: store the unwrapped new value
into the wrapper's `value` field and re-signal iff the new value was
signaled. The TS version mutates `result.value`; `setValue` plays the role
of that field assignment for the concrete wrapper type. -/
def updateValue (setValue : W → α → W) (result : W) (newValue : MaybeReduced α) :
    MaybeReduced W :=
  match newValue with
  | .reduced v => .reduced (setValue result v)
  | .plain v => .plain (setValue result v)

/-- Models a TS mutation performed on `unreduced(x)`: since `unreduced`
returns the same object that the wrapper holds, mutating it mutates
through the wrapper. -/
def mapUnreduced (g : α → α) : MaybeReduced α → MaybeReduced α
  | .plain a => .plain (g a)
  | .reduced a => .reduced (g a)

/-! ### Stage catalog (translated from `src/transducers.ts`) -/

/-- `DedupeState` from `src/transducers.ts`: `last : T | {}` with the
fresh-object marker modelled as `none`. -/
structure DedupeState (ρ τ : Type) : Type where
  last : Option τ
  value : ρ
deriving Repr, DecidableEq

/-- `Dedupe["@@transducer/init"]`. -/
def dedupeInit (xfInit : ρ) : DedupeState ρ τ :=
  { last := none, value := xfInit }

/-- `Dedupe["@@transducer/step"]`: pass the input downstream only when it
differs from `last`; record it as the new `last` when passed. -/
def dedupeStep [DecidableEq τ] (xfStep : ρ → τ → MaybeReduced ρ)
    (result : DedupeState ρ τ) (input : τ) : MaybeReduced (DedupeState ρ τ) :=
  if some input ≠ result.last then
    let result1 : DedupeState ρ τ := { result with last := some input }
    updateValue (fun r v => { r with value := v }) result1 (xfStep result1.value input)
  else
    .plain result

/-- `Dedupe["@@transducer/result"]`. -/
def dedupeResult (xfResult : ρ → γ) (result : DedupeState ρ τ) : γ :=
  xfResult result.value

/-- `Drop["@@transducer/init"]`: reads no instance field (the counter `i`
is left unchanged) and returns the downstream `init`. -/
def dropInit (i : Nat) (xfInit : ρ) : Nat × ρ :=
  (i, xfInit)

/-- `Drop["@@transducer/step"]`: `this.i++ < this.n ? result : xf.step(...)`;
the instance counter `i` is incremented on every call. -/
def dropStep (xfStep : ρ → τ → MaybeReduced ρ) (n : Int)
    (i : Nat) (result : ρ) (input : τ) : Nat × MaybeReduced ρ :=
  if (i : Int) < n then (i + 1, .plain result) else (i + 1, xfStep result input)

/-- `DropWhileState` from `src/transducers.ts`. -/
structure DropWhileState (ρ : Type) : Type where
  value : ρ
  isDoneDropping : Bool
deriving Repr, DecidableEq

/-- `DropWhile["@@transducer/init"]`. -/
def dropWhileInit (xfInit : ρ) : DropWhileState ρ :=
  { value := xfInit, isDoneDropping := false }

/-- `DropWhile["@@transducer/step"]`. -/
def dropWhileStep (xfStep : ρ → τ → MaybeReduced ρ) (pred : τ → Bool)
    (result : DropWhileState ρ) (input : τ) : MaybeReduced (DropWhileState ρ) :=
  if result.isDoneDropping then
    updateValue (fun r v => { r with value := v }) result (xfStep result.value input)
  else
    if pred input then
      .plain result
    else
      let result1 : DropWhileState ρ := { result with isDoneDropping := true }
      updateValue (fun r v => { r with value := v }) result1 (xfStep result1.value input)

/-- `DropWhile["@@transducer/result"]`. -/
def dropWhileResult (xfResult : ρ → γ) (result : DropWhileState ρ) : γ :=
  xfResult result.value

/-- `Filter["@@transducer/step"]`. -/
def filterStep (xfStep : ρ → τ → MaybeReduced ρ) (pred : τ → Bool)
    (result : ρ) (input : τ) : MaybeReduced ρ :=
  if pred input then xfStep result input else .plain result

/-- `remove` from `src/transducers.ts`: `filter(item => !pred(item))`. -/
def removeStep (xfStep : ρ → τ → MaybeReduced ρ) (pred : τ → Bool) :
    ρ → τ → MaybeReduced ρ :=
  filterStep xfStep (fun item => !pred item)

/-- Modelled from the spec: `reduceWithFunction` from the core module (not
in `src/`) — the driving loop of §4.3 restricted to a known collection:
step each element in order, stopping immediately and propagating the
signal when a step returns a signaled result (§4.2 flatMap row). -/
def reduceWithFunction (f : ρ → τ → MaybeReduced ρ) (result : ρ) :
    List τ → MaybeReduced ρ
  | [] => .plain result
  | x :: xs =>
    match f result x with
    | .reduced v => .reduced v
    | .plain r => reduceWithFunction f r xs

/-- `FlatMap["@@transducer/step"]`: reduce the downstream step over the
sub-sequence produced by `f`. -/
def flatMapStep (xfStep : ρ → υ → MaybeReduced ρ) (f : τ → List υ)
    (result : ρ) (input : τ) : MaybeReduced ρ :=
  reduceWithFunction xfStep result (f input)

/-- `Interpose["@@transducer/init"]`: reads no instance field (the
`isStarted` flag is left unchanged) and returns the downstream `init`. -/
def interposeInit (isStarted : Bool) (xfInit : ρ) : Bool × ρ :=
  (isStarted, xfInit)

/-- `Interpose["@@transducer/step"]`: once started, step the separator
first; if that is signaled, return it without stepping the input. -/
def interposeStep (xfStep : ρ → τ → MaybeReduced ρ) (separator : τ)
    (isStarted : Bool) (result : ρ) (input : τ) : Bool × MaybeReduced ρ :=
  if isStarted then
    match xfStep result separator with
    | .reduced v => (isStarted, .reduced v)
    | .plain withSeparator => (isStarted, xfStep withSeparator input)
  else
    (true, xfStep result input)

/-- `MapTransformer["@@transducer/step"]`. -/
def mapStep (xfStep : ρ → υ → MaybeReduced ρ) (f : τ → υ)
    (result : ρ) (input : τ) : MaybeReduced ρ :=
  xfStep result (f input)

/-- Modelled from the spec: `keep(f)` (defined outside `src/`): like map,
but pass `f(input)` downstream only if the result is neither null nor
absent (§4.2); null/absent is modelled as `none`. -/
def keepStep (xfStep : ρ → υ → MaybeReduced ρ) (f : τ → Option υ)
    (result : ρ) (input : τ) : MaybeReduced ρ :=
  match f input with
  | none => .plain result
  | some v => xfStep result v

/-- `PartitionAll["@@transducer/init"]`: reads no instance field (the
pending `buffer` is left unchanged) and returns the downstream `init`. -/
def partitionAllInit (buffer : List τ) (xfInit : ρ) : List τ × ρ :=
  (buffer, xfInit)

/-- `PartitionAll["@@transducer/step"]`: push the input onto the instance
buffer; when the buffer reaches size `n`, flush it downstream and clear it. -/
def partitionAllStep (xfStep : ρ → List τ → MaybeReduced ρ) (n : Int)
    (buffer : List τ) (result : ρ) (input : τ) : List τ × MaybeReduced ρ :=
  let buffer1 := buffer ++ [input]
  if (buffer1.length : Int) = n then
    ([], xfStep result buffer1)
  else
    (buffer1, .plain result)

/-- `PartitionAll["@@transducer/result"]`: flush a non-empty leftover
buffer downstream (unwrapping any signal) before delegating to the
downstream `result`; the buffer is cleared. -/
def partitionAllResult (xfStep : ρ → List τ → MaybeReduced ρ) (xfResult : ρ → γ)
    (buffer : List τ) (result : ρ) : List τ × γ :=
  if buffer.length > 0 then
    ([], xfResult (unreduced (xfStep result buffer)))
  else
    (buffer, xfResult result)

/-- `partitionAll` factory from `src/transducers.ts`: rejects `n = 0` and
`n < 0` at construction time; otherwise returns the validated
configuration from which the stage is built. -/
def partitionAll (n : Int) : Except String Int :=
  if n = 0 then
    .error "Size in partitionAll() cannot be 0"
  else if n < 0 then
    .error "Size in partitionAll() cannot be negative"
  else
    .ok n

/-- `PartitionByState` from `src/transducers.ts`; the `INITIAL_LAST_KEY`
sentinel object is modelled as `none`. -/
structure PartitionByState (ρ κ τ : Type) : Type where
  value : ρ
  buffer : List τ
  lastKey : Option κ
deriving Repr, DecidableEq

/-- `PartitionBy["@@transducer/init"]`. -/
def partitionByInit (xfInit : ρ) : PartitionByState ρ κ τ :=
  { value := xfInit, buffer := [], lastKey := none }

/-- `PartitionBy["@@transducer/step"]`: on a key change (and not on the
first element) flush the buffer downstream and clear it; in every case
push the input onto the (possibly cleared) buffer of the unwrapped result
and record the new key. -/
def partitionByStep [DecidableEq κ] (xfStep : ρ → List τ → MaybeReduced ρ)
    (f : τ → κ) (result : PartitionByState ρ κ τ) (input : τ) :
    MaybeReduced (PartitionByState ρ κ τ) :=
  let key := f input
  let value := result.value
  let buffer := result.buffer
  let lastKey := result.lastKey
  let result1 : PartitionByState ρ κ τ := { result with lastKey := some key }
  let newResult : MaybeReduced (PartitionByState ρ κ τ) :=
    if lastKey = none ∨ lastKey = some key then
      .plain result1
    else
      mapUnreduced (fun r => { r with buffer := [] })
        (updateValue (fun r v => { r with value := v }) result1 (xfStep value buffer))
  mapUnreduced (fun r => { r with buffer := r.buffer ++ [input] }) newResult

/-- `PartitionBy["@@transducer/result"]`: flush a non-empty leftover
buffer downstream (unwrapping any signal) before delegating to the
downstream `result`. -/
def partitionByResult (xfStep : ρ → List τ → MaybeReduced ρ) (xfResult : ρ → γ)
    (result : PartitionByState ρ κ τ) : γ :=
  if result.buffer.length > 0 then
    xfResult (unreduced (xfStep result.value result.buffer))
  else
    xfResult result.value

/-- `Take["@@transducer/step"]`: for `n ≤ 0`, signal immediately without
stepping downstream; otherwise step downstream and signal on the nth
passed element (via the idempotent `ensureReduced`). The instance counter
`i` is incremented only on the path that evaluates `this.i++`. -/
def takeStep (xfStep : ρ → τ → MaybeReduced ρ) (n : Int)
    (i : Nat) (result : ρ) (input : τ) : Nat × MaybeReduced ρ :=
  if n ≤ 0 then
    (i, .reduced result)
  else
    let next := xfStep result input
    if (i : Int) < n - 1 then (i + 1, next) else (i + 1, ensureReduced next)

/-- `TakeNthState` from `src/transducers.ts`. -/
structure TakeNthState (ρ : Type) : Type where
  value : ρ
  i : Nat
deriving Repr, DecidableEq

/-- `TakeNth["@@transducer/step"]`: pass the input downstream iff the
0-indexed counter is a multiple of `n`; the counter increments always. -/
def takeNthStep (xfStep : ρ → τ → MaybeReduced ρ) (n : Int)
    (result : TakeNthState ρ) (input : τ) : MaybeReduced (TakeNthState ρ) :=
  let i := result.i
  let result1 : TakeNthState ρ := { result with i := i + 1 }
  if (i : Int) % n = 0 then
    updateValue (fun r v => { r with value := v }) result1 (xfStep result1.value input)
  else
    .plain result1

/-- `takeNth` factory from `src/transducers.ts`: rejects `n = 0` and
`n < 0` at construction time; otherwise returns the validated
configuration from which the stage is built. -/
def takeNth (n : Int) : Except String Int :=
  if n = 0 then
    .error "Step in takeNth() cannot be 0"
  else if n < 0 then
    .error "Step in takeNth() cannot be negative"
  else
    .ok n

/-- `TakeWhile["@@transducer/step"]`: pass through while the predicate
holds; on the first failure, signal termination without passing that
element downstream. -/
def takeWhileStep (xfStep : ρ → τ → MaybeReduced ρ) (pred : τ → Bool)
    (result : ρ) (input : τ) : MaybeReduced ρ :=
  if pred input then xfStep result input else .reduced result

/-! ### Driving reducer and concrete downstreams -/

/-- Adapt a stage with instance state to a step over the combined state:
the reduction signal wraps only the accumulator in TS while the instance
fields live on the object regardless, so the updated instance state is
carried along outside the signal. -/
def stepInstance (st : σ → ρ → τ → σ × MaybeReduced ρ)
    (p : σ × ρ) (x : τ) : MaybeReduced (σ × ρ) :=
  match st p.1 p.2 x with
  | (s, .plain r) => .plain (s, r)
  | (s, .reduced r) => .reduced (s, r)

/-- Modelled from the spec: the Driving Reducer loop of §4.3 (core module
not in `src/`): pull the next input; if none remains stop; otherwise call
`step`; if the result is signaled, unwrap it and stop; else continue with
the new state. Additionally reports the number of elements pulled from
the source. -/
def reduceCounted (f : S → τ → MaybeReduced S) : S → List τ → S × Nat
  | s, [] => (s, 0)
  | s, x :: xs =>
    match f s x with
    | .reduced v => (v, 1)
    | .plain r =>
      let rest := reduceCounted f r xs
      (rest.1, rest.2 + 1)

/-- The array-collecting terminal transformer (the `toArray` endpoint /
the array-push transformer of the tests): appends each input, never
signals. -/
def collectStep (acc : List τ) (x : τ) : MaybeReduced (List τ) :=
  .plain (acc ++ [x])

/-- Events observed by an instrumented downstream transformer, used to
state which downstream calls a stage performs and in which order. -/
inductive DownstreamEvent (τ : Type) : Type where
  | stepCall : List τ → DownstreamEvent τ
  | finishCall : DownstreamEvent τ
deriving Repr, DecidableEq

/-- An instrumented downstream step that logs each group it is stepped
with and never signals. -/
def logStep (log : List (DownstreamEvent τ)) (group : List τ) :
    MaybeReduced (List (DownstreamEvent τ)) :=
  .plain (log ++ [.stepCall group])

/-- An instrumented downstream finish that logs that it was called. -/
def logResult (log : List (DownstreamEvent τ)) : List (DownstreamEvent τ) :=
  log ++ [.finishCall]

/-! ### End-to-end runs of single stages over the collector -/

/-- Drive `take(n)` over a source list with the collector downstream,
returning final instance counter, collected output, and pull count. -/
def takeDrive (n : Int) (xs : List τ) : (Nat × List τ) × Nat :=
  reduceCounted (stepInstance (fun i r x => takeStep collectStep n i r x)) (0, []) xs

/-- Number of elements `take(n)` pulls from the source. -/
def takePulls (n : Int) (xs : List τ) : Nat :=
  (takeDrive n xs).2

/-- Output passed downstream by `take(n)`. -/
def takeOut (n : Int) (xs : List τ) : List τ :=
  (takeDrive n xs).1.2

/-- Drive `partitionAll(n)` over a source list with the collector
downstream (step phase only). -/
def partitionAllDrive (n : Int) (xs : List τ) : (List τ × List (List τ)) × Nat :=
  reduceCounted (stepInstance (fun b r x => partitionAllStep collectStep n b r x))
    ([], []) xs

/-- Full `partitionAll(n)` run: step phase then finish. -/
def partitionAllRun (n : Int) (xs : List τ) : List (List τ) :=
  (partitionAllResult collectStep id (partitionAllDrive n xs).1.1
    (partitionAllDrive n xs).1.2).2

/-- Full `partitionBy(f)` run over the collector downstream. -/
def partitionByRun [DecidableEq κ] (f : τ → κ) (xs : List τ) : List (List τ) :=
  partitionByResult collectStep id
    (reduceCounted (fun s x => partitionByStep collectStep f s x)
      (partitionByInit []) xs).1

/-- Drive `interpose(sep)` over the collector, returning the final
`isStarted` flag and the collected output. -/
def interposeDrive (sep : τ) (isStarted : Bool) (xs : List τ) : Bool × List τ :=
  (reduceCounted (stepInstance (fun s r x => interposeStep collectStep sep s r x))
    (isStarted, []) xs).1

/-- Full `interpose(sep)` run from a fresh stage instance. -/
def interposeRun (sep : τ) (xs : List τ) : List τ :=
  (interposeDrive sep false xs).2

/-- Full `dedupe()` run over the collector downstream. -/
def dedupeRun [DecidableEq τ] (xs : List τ) : List τ :=
  dedupeResult id
    (reduceCounted (fun s x => dedupeStep collectStep s x) (dedupeInit []) xs).1

/-- Full `takeWhile(pred)` run over the collector downstream. -/
def takeWhileRun (pred : τ → Bool) (xs : List τ) : List τ :=
  (reduceCounted (fun s x => takeWhileStep collectStep pred s x) [] xs).1

/-- Full `dropWhile(pred)` run over the collector downstream. -/
def dropWhileRun (pred : τ → Bool) (xs : List τ) : List τ :=
  dropWhileResult id
    (reduceCounted (fun s x => dropWhileStep collectStep pred s x)
      (dropWhileInit []) xs).1

/-- A full traversal of a `drop(n)` chain over the collector, starting
from instance counter `i` (each traversal begins by calling the chain's
`init`, which leaves the instance counter unchanged): returns the final
instance counter and the output. -/
def dropTraverse (n : Int) (i : Nat) (xs : List τ) : Nat × List τ :=
  (reduceCounted (stepInstance (fun s r x => dropStep collectStep n s r x))
    (dropInit i ([] : List τ)) xs).1

/-- A full traversal of an `interpose(sep)` chain over the collector,
starting from the given `isStarted` instance flag. -/
def interposeTraverse (sep : τ) (isStarted : Bool) (xs : List τ) : Bool × List τ :=
  (reduceCounted (stepInstance (fun s r x => interposeStep collectStep sep s r x))
    (interposeInit isStarted ([] : List τ)) xs).1

/-! ### Specification-side list functions (targets the runs are compared
against) -/

/-- Chunks of size `m` (the last possibly shorter): the groups
`partitionAll(m)` is specified to produce. -/
def chunksSpec (m : Nat) : List τ → List (List τ)
  | [] => []
  | x :: xs =>
    if _h : m = 0 then []
    else (x :: xs).take m :: chunksSpec m ((x :: xs).drop m)
termination_by xs => xs.length
decreasing_by
  simp only [List.length_drop, List.length_cons]
  omega

/-- Helper for `groupByKeySpec`: extend the current group `buf` (whose key
is `k`) while keys stay equal; a key change closes the group. -/
def groupByKeyGo [DecidableEq κ] (f : τ → κ) (k : κ) (buf : List τ) :
    List τ → List (List τ)
  | [] => [buf]
  | x :: xs =>
    if f x = k then groupByKeyGo f k (buf ++ [x]) xs
    else buf :: groupByKeyGo f (f x) [x] xs

/-- Grouping of consecutive elements with equal keys: the groups
`partitionBy(f)` is specified to produce. -/
def groupByKeySpec [DecidableEq κ] (f : τ → κ) : List τ → List (List τ)
  | [] => []
  | x :: xs => groupByKeyGo f (f x) [x] xs

/-- Helper for `dedupeSpec`: drop elements equal to the last passed one. -/
def dedupeGo [DecidableEq τ] (last : τ) : List τ → List τ
  | [] => []
  | x :: xs => if x = last then dedupeGo last xs else x :: dedupeGo x xs

/-- Removal of consecutive duplicates: the output `dedupe()` is specified
to produce. -/
def dedupeSpec [DecidableEq τ] : List τ → List τ
  | [] => []
  | x :: xs => x :: dedupeGo x xs

/-! ### Unfolding lemmas for the driver -/

theorem reduceCounted_nil (f : S → τ → MaybeReduced S) (s : S) :
    reduceCounted f s [] = (s, 0) := rfl

theorem reduceCounted_cons_plain {f : S → τ → MaybeReduced S} {s r : S} {x : τ}
    (xs : List τ) (h : f s x = .plain r) :
    reduceCounted f s (x :: xs)
      = ((reduceCounted f r xs).1, (reduceCounted f r xs).2 + 1) := by
  simp [reduceCounted, h]

theorem reduceCounted_cons_reduced {f : S → τ → MaybeReduced S} {s v : S} {x : τ}
    (xs : List τ) (h : f s x = .reduced v) :
    reduceCounted f s (x :: xs) = (v, 1) := by
  simp [reduceCounted, h]

theorem stepInstance_plain {st : σ → ρ → τ → σ × MaybeReduced ρ}
    {p : σ × ρ} {x : τ} {s : σ} {r : ρ} (h : st p.1 p.2 x = (s, .plain r)) :
    stepInstance st p x = .plain (s, r) := by
  simp [stepInstance, h]

theorem stepInstance_reduced {st : σ → ρ → τ → σ × MaybeReduced ρ}
    {p : σ × ρ} {x : τ} {s : σ} {r : ρ} (h : st p.1 p.2 x = (s, .reduced r)) :
    stepInstance st p x = .reduced (s, r) := by
  simp [stepInstance, h]

/-! ### Helper lemmas about `take` -/

theorem takeStep_collect_mid {τ : Type} {n : Int} {i : Nat} {acc : List τ} {x : τ}
    (hn : ¬n ≤ 0) (hlt : (i : Int) < n - 1) :
    takeStep collectStep n i acc x = (i + 1, .plain (acc ++ [x])) := by
  simp [takeStep, collectStep, hn, hlt]

theorem takeStep_collect_last {τ : Type} {n : Int} {i : Nat} {acc : List τ} {x : τ}
    (hn : ¬n ≤ 0) (hlt : ¬(i : Int) < n - 1) :
    takeStep collectStep n i acc x = (i + 1, .reduced (acc ++ [x])) := by
  simp [takeStep, collectStep, ensureReduced, hn, hlt]

theorem take_pos_aux {τ : Type} (n : Int) (hn : 1 ≤ n) :
    ∀ (xs : List τ) (i : Nat) (acc : List τ), (i : Int) < n →
      (reduceCounted (stepInstance (fun s r x => takeStep collectStep n s r x))
          (i, acc) xs).1.2 = acc ++ xs.take (n.toNat - i) ∧
      (reduceCounted (stepInstance (fun s r x => takeStep collectStep n s r x))
          (i, acc) xs).2 = min (n.toNat - i) xs.length := by
  have hm : ((n.toNat : Int)) = n := Int.toNat_of_nonneg (by omega)
  intro xs
  induction xs with
  | nil => intro i acc _; simp [reduceCounted_nil]
  | cons x xs ih =>
    intro i acc hi
    have hn0 : ¬n ≤ 0 := by omega
    by_cases hlt : (i : Int) < n - 1
    · have h1 : stepInstance (fun s r x => takeStep collectStep n s r x) (i, acc) x
          = .plain (i + 1, acc ++ [x]) :=
        stepInstance_plain (takeStep_collect_mid hn0 hlt)
      rw [reduceCounted_cons_plain xs h1]
      have hsucc : (((i : Nat) + 1 : Nat) : Int) < n := by push_cast; omega
      have h2 := ih (i + 1) (acc ++ [x]) hsucc
      have hd : n.toNat - i = (n.toNat - (i + 1)) + 1 := by omega
      constructor
      · rw [h2.1, hd, List.take_succ_cons, List.append_assoc]
        simp
      · rw [h2.2, hd]
        simp only [List.length_cons]
        omega
    · have h1 : stepInstance (fun s r x => takeStep collectStep n s r x) (i, acc) x
          = .reduced (i + 1, acc ++ [x]) :=
        stepInstance_reduced (takeStep_collect_last hn0 hlt)
      rw [reduceCounted_cons_reduced xs h1]
      have hd : n.toNat - i = 1 := by omega
      rw [hd]
      constructor
      · simp
      · simp only [List.length_cons]
        omega

theorem take_nonpos_aux {τ : Type} (n : Int) (hn : n ≤ 0) (xs : List τ)
    (i : Nat) (acc : List τ) :
    (reduceCounted (stepInstance (fun s r x => takeStep collectStep n s r x))
        (i, acc) xs).1.2 = acc ∧
    (reduceCounted (stepInstance (fun s r x => takeStep collectStep n s r x))
        (i, acc) xs).2 = min 1 xs.length := by
  cases xs with
  | nil => simp [reduceCounted_nil]
  | cons x xs =>
    have h1 : stepInstance (fun s r x => takeStep collectStep n s r x) (i, acc) x
        = .reduced (i, acc) :=
      stepInstance_reduced (by simp [takeStep, hn])
    rw [reduceCounted_cons_reduced xs h1]
    simp

/-! ### C1 -/

/-- C1, counterexample: as stated the claim is false — with `n = 0` (so
both `n ≥ 0` and `n ≤ 0`) over the one-element source `[1]`, the chain
pulls one element, not zero: the driver must pull an element before the
stage's step can return the termination signal. -/
theorem take_nonpos_pull_counterexample :
    takePulls 0 ([1] : List Nat) = 1 ∧ ¬takePulls 0 ([1] : List Nat) = 0 := by
  constructor
  · rfl
  · decide

/-- C1 (amended): driving `take(n)` pulls `min n (source length)` elements
when `n ≥ 1` — so at most `n`, with termination signaled on the nth passed
element itself, never by an (n+1)th pull — and when `n ≤ 0` it passes
nothing downstream and pulls at most one element (exactly one on a
non-empty source, since the termination signal is only delivered by the
first step call). -/
theorem take_pull_bounds {τ : Type} (n : Int) (xs : List τ) :
    (1 ≤ n → takePulls n xs = min n.toNat xs.length ∧
      takeOut n xs = xs.take n.toNat ∧ takePulls n xs ≤ n.toNat) ∧
    (n ≤ 0 → takePulls n xs = min 1 xs.length ∧ takeOut n xs = []) := by
  constructor
  · intro hn
    have h := take_pos_aux n hn xs 0 [] (by omega)
    refine ⟨?_, ?_, ?_⟩
    · simpa [takePulls, takeDrive] using h.2
    · simpa [takeOut, takeDrive] using h.1
    · have h2 : takePulls n xs = min n.toNat xs.length := by
        simpa [takePulls, takeDrive] using h.2
      omega
  · intro hn
    have h := take_nonpos_aux n hn xs 0 []
    exact ⟨by simpa [takePulls, takeDrive] using h.2,
      by simpa [takeOut, takeDrive] using h.1⟩

/-- C1, witness: the amended theorem applied at concrete inputs. -/
theorem take_pull_bounds_witness :
    takePulls 2 ([10, 20, 30, 40, 50] : List Nat) = 2 ∧
    takeOut 2 ([10, 20, 30, 40, 50] : List Nat) = [10, 20] ∧
    takePulls (-3) ([10, 20] : List Nat) = 1 ∧
    takeOut (-3) ([10, 20] : List Nat) = [] := by
  have h1 := (take_pull_bounds 2 ([10, 20, 30, 40, 50] : List Nat)).1 (by norm_num)
  have h2 := (take_pull_bounds (-3) ([10, 20] : List Nat)).2 (by norm_num)
  exact ⟨by simpa using h1.1, by simpa using h1.2.1,
    by simpa using h2.1, by simpa using h2.2⟩

/-! ### Helper lemmas about `chunksSpec` and `partitionAll` -/

theorem chunksSpec_nil {τ : Type} (m : Nat) : chunksSpec m ([] : List τ) = [] := by
  simp [chunksSpec]

theorem chunksSpec_cons {τ : Type} {m : Nat} (hm : m ≠ 0) (x : τ) (xs : List τ) :
    chunksSpec m (x :: xs) = (x :: xs).take m :: chunksSpec m ((x :: xs).drop m) := by
  rw [chunksSpec]
  simp [hm]

theorem chunksSpec_ne_nil_eq {τ : Type} {m : Nat} {ys : List τ}
    (hm : m ≠ 0) (h : ys ≠ []) :
    chunksSpec m ys = ys.take m :: chunksSpec m (ys.drop m) := by
  cases ys with
  | nil => exact absurd rfl h
  | cons a l => exact chunksSpec_cons hm a l

theorem chunksSpec_short {τ : Type} {m : Nat} {ys : List τ}
    (hm : m ≠ 0) (h1 : ys ≠ []) (h2 : ys.length ≤ m) :
    chunksSpec m ys = [ys] := by
  rw [chunksSpec_ne_nil_eq hm h1, List.take_of_length_le h2,
    List.drop_of_length_le h2, chunksSpec_nil]

theorem chunksSpec_full {τ : Type} {m : Nat} {b : List τ}
    (hm : m ≠ 0) (hb : b.length = m) (xs : List τ) :
    chunksSpec m (b ++ xs) = b :: chunksSpec m xs := by
  have hbne : b ≠ [] := by
    intro h
    rw [h] at hb
    simp at hb
    omega
  have hne : b ++ xs ≠ [] := by
    cases b with
    | nil => exact absurd rfl hbne
    | cons a l => simp
  rw [chunksSpec_ne_nil_eq hm hne, ← hb, List.take_left, List.drop_left]

theorem partitionAll_run_aux {τ : Type} (n : Int) (hn : 1 ≤ n) :
    ∀ (xs buf : List τ) (acc : List (List τ)), (buf.length : Int) < n →
      (partitionAllResult collectStep id
        (reduceCounted (stepInstance (fun b r x => partitionAllStep collectStep n b r x))
          (buf, acc) xs).1.1
        (reduceCounted (stepInstance (fun b r x => partitionAllStep collectStep n b r x))
          (buf, acc) xs).1.2).2
        = acc ++ chunksSpec n.toNat (buf ++ xs) := by
  have hm : ((n.toNat : Int)) = n := Int.toNat_of_nonneg (by omega)
  have hm0 : n.toNat ≠ 0 := by omega
  intro xs
  induction xs with
  | nil =>
    intro buf acc hbuf
    rw [reduceCounted_nil]
    by_cases hb : buf = []
    · subst hb
      simp [partitionAllResult, chunksSpec_nil]
    · have hpos : buf.length > 0 := List.length_pos.mpr hb
      have hle : buf.length ≤ n.toNat := by omega
      simp [partitionAllResult, hpos, collectStep, unreduced,
        chunksSpec_short hm0 hb hle]
  | cons x xs ih =>
    intro buf acc hbuf
    by_cases hfull : ((buf.length : Int) + 1 = n)
    · have h1 : stepInstance (fun b r x => partitionAllStep collectStep n b r x)
          (buf, acc) x = .plain ([], acc ++ [buf ++ [x]]) :=
        stepInstance_plain (by simp [partitionAllStep, collectStep, hfull])
      rw [reduceCounted_cons_plain xs h1]
      have h2 := ih [] (acc ++ [buf ++ [x]])
        (by simp only [List.length_nil, Nat.cast_zero]; omega)
      rw [h2]
      have hlen : (buf ++ [x]).length = n.toNat := by
        simp only [List.length_append, List.length_cons, List.length_nil]
        omega
      rw [show buf ++ x :: xs = (buf ++ [x]) ++ xs by simp,
        chunksSpec_full hm0 hlen xs]
      simp
    · have h1 : stepInstance (fun b r x => partitionAllStep collectStep n b r x)
          (buf, acc) x = .plain (buf ++ [x], acc) :=
        stepInstance_plain (by simp [partitionAllStep, collectStep, hfull])
      rw [reduceCounted_cons_plain xs h1]
      have hlt : (((buf ++ [x]).length : Nat) : Int) < n := by
        simp only [List.length_append, List.length_cons, List.length_nil]
        push_cast
        omega
      have h2 := ih (buf ++ [x]) acc hlt
      rw [h2]
      rw [show buf ++ x :: xs = (buf ++ [x]) ++ xs by simp]

theorem chunks_join {τ : Type} (m : Nat) (hm : 1 ≤ m) (xs : List τ) :
    (chunksSpec m xs).flatten = xs := by
  have aux : ∀ (N : Nat) (ys : List τ), ys.length ≤ N →
      (chunksSpec m ys).flatten = ys := by
    intro N
    induction N with
    | zero =>
      intro ys h
      have : ys = [] := by
        cases ys with
        | nil => rfl
        | cons a l => simp at h
      subst this
      simp [chunksSpec_nil]
    | succ N ihN =>
      intro ys h
      by_cases hys : ys = []
      · subst hys; simp [chunksSpec_nil]
      · rw [chunksSpec_ne_nil_eq (by omega) hys]
        have hdrop : (ys.drop m).length ≤ N := by
          have hpos : 0 < ys.length := List.length_pos.mpr hys
          simp only [List.length_drop]
          omega
        simp only [List.flatten_cons, ihN (ys.drop m) hdrop]
        exact List.take_append_drop m ys
  exact aux xs.length xs le_rfl

theorem chunks_length {τ : Type} (m : Nat) (hm : 1 ≤ m) (xs : List τ) :
    (chunksSpec m xs).length = (xs.length + m - 1) / m := by
  have aux : ∀ (N : Nat) (ys : List τ), ys.length ≤ N →
      (chunksSpec m ys).length = (ys.length + m - 1) / m := by
    intro N
    induction N with
    | zero =>
      intro ys h
      have : ys = [] := by
        cases ys with
        | nil => rfl
        | cons a l => simp at h
      subst this
      simp only [chunksSpec_nil, List.length_nil, Nat.zero_add]
      exact (Nat.div_eq_of_lt (by omega)).symm
    | succ N ihN =>
      intro ys h
      by_cases hys : ys = []
      · subst hys
        simp only [chunksSpec_nil, List.length_nil, Nat.zero_add]
        exact (Nat.div_eq_of_lt (by omega)).symm
      · rw [chunksSpec_ne_nil_eq (by omega) hys]
        have hpos : 0 < ys.length := List.length_pos.mpr hys
        have hdrop : (ys.drop m).length ≤ N := by
          simp only [List.length_drop]; omega
        have hrw : ys.length + m - 1 = (ys.length - 1) + m := by omega
        rw [List.length_cons, ihN (ys.drop m) hdrop, List.length_drop, hrw,
          Nat.add_div_right _ (by omega)]
        by_cases hle : ys.length ≤ m
        · have h0 : ys.length - m = 0 := by omega
          rw [h0]
          have h1 : (0 + m - 1) / m = 0 := Nat.div_eq_of_lt (by omega)
          have h2 : (ys.length - 1) / m = 0 := Nat.div_eq_of_lt (by omega)
          rw [h1, h2]
        · have hrw2 : ys.length - m + m - 1 = ys.length - 1 := by omega
          rw [hrw2]
  exact aux xs.length xs le_rfl

theorem chunks_mem {τ : Type} (m : Nat) (hm : 1 ≤ m) (xs : List τ) :
    ∀ g ∈ chunksSpec m xs, g ≠ [] ∧ g.length ≤ m := by
  have aux : ∀ (N : Nat) (ys : List τ), ys.length ≤ N →
      ∀ g ∈ chunksSpec m ys, g ≠ [] ∧ g.length ≤ m := by
    intro N
    induction N with
    | zero =>
      intro ys h
      have : ys = [] := by
        cases ys with
        | nil => rfl
        | cons a l => simp at h
      subst this
      simp [chunksSpec_nil]
    | succ N ihN =>
      intro ys h
      by_cases hys : ys = []
      · subst hys; simp [chunksSpec_nil]
      · rw [chunksSpec_ne_nil_eq (by omega) hys]
        have hpos : 0 < ys.length := List.length_pos.mpr hys
        have hdrop : (ys.drop m).length ≤ N := by
          simp only [List.length_drop]; omega
        intro g hg
        rcases List.mem_cons.mp hg with hg | hg
        · subst hg
          constructor
          · intro htake
            have := congrArg List.length htake
            simp only [List.length_take, List.length_nil] at this
            omega
          · simp only [List.length_take]
            omega
        · exact ihN (ys.drop m) hdrop g hg
  exact aux xs.length xs le_rfl

theorem chunks_getD {τ : Type} (m : Nat) (hm : 1 ≤ m) (xs : List τ) :
    ∀ i, i + 1 < (chunksSpec m xs).length →
      ((chunksSpec m xs).getD i []).length = m := by
  have aux : ∀ (N : Nat) (ys : List τ), ys.length ≤ N →
      ∀ i, i + 1 < (chunksSpec m ys).length →
        ((chunksSpec m ys).getD i []).length = m := by
    intro N
    induction N with
    | zero =>
      intro ys h
      have : ys = [] := by
        cases ys with
        | nil => rfl
        | cons a l => simp at h
      subst this
      simp [chunksSpec_nil]
    | succ N ihN =>
      intro ys h
      by_cases hys : ys = []
      · subst hys; simp [chunksSpec_nil]
      · rw [chunksSpec_ne_nil_eq (by omega) hys]
        have hpos : 0 < ys.length := List.length_pos.mpr hys
        have hdrop : (ys.drop m).length ≤ N := by
          simp only [List.length_drop]; omega
        intro i hi
        cases i with
        | zero =>
          rw [List.getD_cons_zero]
          simp only [List.length_cons] at hi
          have hne : chunksSpec m (ys.drop m) ≠ [] := by
            intro hceq
            rw [hceq] at hi
            simp at hi
          have hdne : ys.drop m ≠ [] := by
            intro hdeq
            rw [hdeq, chunksSpec_nil] at hne
            exact hne rfl
          have hlt : m < ys.length := by
            by_contra hcon
            exact hdne (List.drop_of_length_le (by omega))
          simp only [List.length_take]
          omega
        | succ j =>
          rw [List.getD_cons_succ]
          simp only [List.length_cons] at hi
          exact ihN (ys.drop m) hdrop j (by omega)
  exact aux xs.length xs le_rfl

/-! ### C2 -/

/-- C2: for `n ≥ 1` over `m` input elements, `partitionAll(n)` emits
`ceil(m/n)` groups in input order (their concatenation is the input), each
of size exactly `n` except possibly the last, which is non-empty and of
size at most `n`; a non-empty leftover buffer at finish is stepped
downstream before the downstream finish is delegated to; and for
`[1,2,3,4,5]` with `n = 2` the output is `[[1,2],[3,4],[5]]`. -/
theorem partitionAll_groups {τ : Type} (n : Int) (xs : List τ) (hn : 1 ≤ n) :
    partitionAllRun n xs = chunksSpec n.toNat xs ∧
    (partitionAllRun n xs).flatten = xs ∧
    (partitionAllRun n xs).length = (xs.length + n.toNat - 1) / n.toNat ∧
    (∀ g ∈ partitionAllRun n xs, g ≠ [] ∧ g.length ≤ n.toNat) ∧
    (∀ i, i + 1 < (partitionAllRun n xs).length →
      ((partitionAllRun n xs).getD i []).length = n.toNat) ∧
    (∀ (log : List (DownstreamEvent τ)) (buf : List τ), buf ≠ [] →
      partitionAllResult logStep logResult buf log
        = ([], log ++ [.stepCall buf, .finishCall])) ∧
    partitionAllRun 2 [1, 2, 3, 4, 5] = [[1, 2], [3, 4], [5]] := by
  have hm : 1 ≤ n.toNat := by omega
  have hrun : partitionAllRun n xs = chunksSpec n.toNat xs := by
    have h := partitionAll_run_aux n hn xs [] [] (by simp; omega)
    simpa [partitionAllRun, partitionAllDrive] using h
  refine ⟨hrun, ?_, ?_, ?_, ?_, ?_, by decide⟩
  · rw [hrun]; exact chunks_join n.toNat hm xs
  · rw [hrun]; exact chunks_length n.toNat hm xs
  · rw [hrun]; exact chunks_mem n.toNat hm xs
  · rw [hrun]; exact chunks_getD n.toNat hm xs
  · intro log buf hbuf
    have hpos : buf.length > 0 := List.length_pos.mpr hbuf
    simp [partitionAllResult, hpos, logStep, logResult, unreduced]

/-- C2, witness: the theorem applied at `n = 2`, input `[1,2,3,4,5]`. -/
theorem partitionAll_groups_witness :
    partitionAllRun 2 ([1, 2, 3, 4, 5] : List Nat) = [[1, 2], [3, 4], [5]] ∧
    (partitionAllRun 2 ([1, 2, 3, 4, 5] : List Nat)).length = 3 := by
  have h := partitionAll_groups 2 ([1, 2, 3, 4, 5] : List Nat) (by norm_num)
  exact ⟨h.2.2.2.2.2.2, by rw [h.2.2.1]; rfl⟩

/-! ### Helper lemmas about `partitionBy` -/

theorem partitionBy_run_aux {τ κ : Type} [DecidableEq κ] (f : τ → κ) :
    ∀ (xs buf : List τ) (k : κ) (acc : List (List τ)), buf ≠ [] →
      partitionByResult collectStep id
        (reduceCounted (fun s x => partitionByStep collectStep f s x)
          ⟨acc, buf, some k⟩ xs).1
        = acc ++ groupByKeyGo f k buf xs := by
  intro xs
  induction xs with
  | nil =>
    intro buf k acc hbuf
    rw [reduceCounted_nil]
    have hpos : buf.length > 0 := List.length_pos.mpr hbuf
    simp [partitionByResult, hpos, collectStep, unreduced, groupByKeyGo]
  | cons x xs ih =>
    intro buf k acc hbuf
    by_cases hk : f x = k
    · have h1 : partitionByStep collectStep f ⟨acc, buf, some k⟩ x
          = .plain ⟨acc, buf ++ [x], some (f x)⟩ := by
        simp [partitionByStep, hk, mapUnreduced]
      rw [reduceCounted_cons_plain xs h1,
        ih (buf ++ [x]) (f x) acc (by simp)]
      simp [groupByKeyGo, hk]
    · have h1 : partitionByStep collectStep f ⟨acc, buf, some k⟩ x
          = .plain ⟨acc ++ [buf], [x], some (f x)⟩ := by
        simp [partitionByStep, updateValue, mapUnreduced, collectStep, hk,
          Ne.symm hk]
      rw [reduceCounted_cons_plain xs h1,
        ih [x] (f x) (acc ++ [buf]) (by simp)]
      simp [groupByKeyGo, hk]

theorem partitionBy_run_spec {τ κ : Type} [DecidableEq κ] (f : τ → κ)
    (xs : List τ) : partitionByRun f xs = groupByKeySpec f xs := by
  cases xs with
  | nil => rfl
  | cons x xs =>
    have h1 : partitionByStep collectStep f (partitionByInit []) x
        = .plain ⟨[], [x], some (f x)⟩ := by
      simp [partitionByStep, partitionByInit, mapUnreduced]
    simp only [partitionByRun]
    rw [reduceCounted_cons_plain xs h1]
    have h2 := partitionBy_run_aux f xs [x] (f x) [] (by simp)
    rw [h2]
    rfl

/-! ### C4 -/

/-- C4: `partitionBy(f)` groups consecutive elements with equal keys
(decidable equality) into one emitted group: its run over the collector
equals the consecutive-grouping of the input; a state whose last key is
the initial unset marker never flushes on a step, for any downstream
whatsoever (the first element never triggers a flush); a non-empty
leftover buffer at finish is stepped downstream exactly once before the
downstream finish is delegated to; and over `["a","b","cc","dd","e"]`
with `f = length` the output is `[["a","b"],["cc","dd"],["e"]]`. -/
theorem partitionBy_grouping {τ κ : Type} [DecidableEq κ] (f : τ → κ)
    (xs : List τ) :
    partitionByRun f xs = groupByKeySpec f xs ∧
    (∀ (ρ : Type) (g : ρ → List τ → MaybeReduced ρ) (v : ρ) (buf : List τ)
      (x : τ), partitionByStep g f ⟨v, buf, none⟩ x
        = .plain ⟨v, buf ++ [x], some (f x)⟩) ∧
    (∀ (st : PartitionByState (List (DownstreamEvent τ)) κ τ),
      st.buffer ≠ [] →
      partitionByResult logStep logResult st
        = st.value ++ [.stepCall st.buffer, .finishCall]) ∧
    partitionByRun (fun s => s.length) ["a", "b", "cc", "dd", "e"]
      = [["a", "b"], ["cc", "dd"], ["e"]] := by
  refine ⟨partitionBy_run_spec f xs, ?_, ?_, by decide⟩
  · intro ρ g v buf x
    simp [partitionByStep, mapUnreduced]
  · intro st hbuf
    have hpos : st.buffer.length > 0 := List.length_pos.mpr hbuf
    simp [partitionByResult, hpos, logStep, logResult, unreduced]

/-- C4, witness: the theorem applied at the concrete key function and
input of the spec example, and the leftover-at-finish clause at a
concrete state. -/
theorem partitionBy_grouping_witness :
    partitionByRun (fun s => s.length) ["a", "b", "cc", "dd", "e"]
      = [["a", "b"], ["cc", "dd"], ["e"]] ∧
    partitionByResult logStep logResult
      (⟨[], ["e"], some 1⟩ :
        PartitionByState (List (DownstreamEvent String)) Nat String)
      = [.stepCall ["e"], .finishCall] := by
  have h := partitionBy_grouping (fun s : String => s.length)
    ["a", "b", "cc", "dd", "e"]
  refine ⟨h.2.2.2, ?_⟩
  have h2 := h.2.2.1 ⟨[], ["e"], some 1⟩ (by decide)
  simpa using h2

/-! ### Helper lemmas about `interpose` -/

/-- `sep :: x` pairs: what `interpose` appends per element once started. -/
def sepPairs (sep : τ) : List τ → List τ
  | [] => []
  | x :: xs => sep :: x :: sepPairs sep xs

theorem intersperse_eq_sepPairs {τ : Type} (sep : τ) :
    ∀ (xs : List τ) (x : τ),
      List.intersperse sep (x :: xs) = x :: sepPairs sep xs := by
  intro xs
  induction xs with
  | nil => intro x; simp [sepPairs, List.intersperse_singleton]
  | cons y ys ih =>
    intro x
    rw [List.intersperse_cons_cons, ih y]
    simp [sepPairs]

theorem interpose_run_aux {τ : Type} (sep : τ) :
    ∀ (xs acc : List τ),
      (reduceCounted (stepInstance (fun s r x => interposeStep collectStep sep s r x))
        (true, acc) xs).1 = (true, acc ++ sepPairs sep xs) := by
  intro xs
  induction xs with
  | nil => intro acc; simp [reduceCounted_nil, sepPairs]
  | cons x xs ih =>
    intro acc
    have h1 : stepInstance (fun s r x => interposeStep collectStep sep s r x)
        (true, acc) x = .plain (true, acc ++ [sep] ++ [x]) :=
      stepInstance_plain (by simp [interposeStep, collectStep])
    rw [reduceCounted_cons_plain xs h1, ih (acc ++ [sep] ++ [x])]
    simp [sepPairs]

theorem interpose_run_spec {τ : Type} (sep : τ) (xs : List τ) :
    interposeRun sep xs = List.intersperse sep xs := by
  cases xs with
  | nil => rfl
  | cons x xs =>
    have h1 : stepInstance (fun s r x => interposeStep collectStep sep s r x)
        ((false : Bool), ([] : List τ)) x = .plain (true, [x]) :=
      stepInstance_plain (by simp [interposeStep, collectStep])
    simp only [interposeRun, interposeDrive]
    rw [reduceCounted_cons_plain xs h1, interpose_run_aux sep xs [x],
      intersperse_eq_sepPairs sep xs x]
    simp

/-! ### C6 -/

/-- C6: `interpose(sep)` passes `sep` downstream immediately before every
input except the first — its run over the collector is exactly
`List.intersperse sep` of the input, so `[1,2,3]` with separator `0`
yields `[1,0,2,0,3]` and empty or single-element input produces no
separator — and if the downstream step on the separator returns a
signaled result, that signaled result is returned at once, for any
downstream whatsoever, without the real input being passed. -/
theorem interpose_separators {τ : Type} (sep : τ) (xs : List τ) :
    interposeRun sep xs = List.intersperse sep xs ∧
    (∀ (ρ : Type) (g : ρ → τ → MaybeReduced ρ) (acc : ρ) (input : τ) (v : ρ),
      g acc sep = .reduced v →
      interposeStep g sep true acc input = (true, .reduced v)) ∧
    interposeRun 0 ([1, 2, 3] : List Int) = [1, 0, 2, 0, 3] ∧
    interposeRun 0 ([1] : List Int) = [1] ∧
    interposeRun 0 ([] : List Int) = [] := by
  refine ⟨interpose_run_spec sep xs, ?_, by decide, by decide, by decide⟩
  intro ρ g acc input v h
  simp [interposeStep, h]

/-- C6, witness: the short-circuit clause at a downstream that signals on
the separator — the result is the separator call result, with the real
input never stepped. -/
theorem interpose_separators_witness :
    interposeStep (fun (acc : List Nat) (x : Nat) => MaybeReduced.reduced (acc ++ [x]))
      0 true [] 7 = (true, .reduced [0]) :=
  (interpose_separators 0 ([] : List Nat)).2.1 (List Nat)
    (fun acc x => MaybeReduced.reduced (acc ++ [x])) [] 7 [0] rfl

/-! ### Helper lemmas about `dedupe` -/

theorem dedupe_run_aux {τ : Type} [DecidableEq τ] :
    ∀ (xs : List τ) (last : τ) (acc : List τ),
      (reduceCounted (fun s x => dedupeStep collectStep s x)
        ⟨some last, acc⟩ xs).1.value = acc ++ dedupeGo last xs := by
  intro xs
  induction xs with
  | nil => intro last acc; simp [reduceCounted_nil, dedupeGo]
  | cons x xs ih =>
    intro last acc
    by_cases hx : x = last
    · have h1 : dedupeStep collectStep ⟨some last, acc⟩ x
          = .plain ⟨some last, acc⟩ := by
        simp [dedupeStep, hx]
      rw [reduceCounted_cons_plain xs h1, ih last acc]
      simp [dedupeGo, hx]
    · have h1 : dedupeStep collectStep ⟨some last, acc⟩ x
          = .plain ⟨some x, acc ++ [x]⟩ := by
        simp [dedupeStep, hx, updateValue, collectStep]
      rw [reduceCounted_cons_plain xs h1, ih x (acc ++ [x])]
      simp [dedupeGo, hx]

theorem dedupe_run_spec {τ : Type} [DecidableEq τ] (xs : List τ) :
    dedupeRun xs = dedupeSpec xs := by
  cases xs with
  | nil => rfl
  | cons x xs =>
    have h1 : dedupeStep collectStep (dedupeInit ([] : List τ)) x
        = .plain ⟨some x, [x]⟩ := by
      simp [dedupeStep, dedupeInit, updateValue, collectStep]
    simp only [dedupeRun]
    rw [reduceCounted_cons_plain xs h1]
    have h2 := dedupe_run_aux xs x [x]
    simp only [dedupeResult, id_eq] at h2 ⊢
    rw [h2]
    rfl

/-! ### C7 -/

/-- C7: `dedupe()` passes an element downstream iff it differs from the
immediately preceding input (decidable equality), recording each passed
element as the new last value: its run over the collector equals the
consecutive-duplicate removal of the input; with the initial unset marker
in place, every possible input passes (the equality check never triggers
against the marker), for any downstream whatsoever; `[1,2,2,3,3,3]`
yields `[1,2,3]` and `[1,2,1]` yields `[1,2,1]`. -/
theorem dedupe_consecutive {τ : Type} [DecidableEq τ] (xs : List τ) :
    dedupeRun xs = dedupeSpec xs ∧
    (∀ (ρ : Type) (g : ρ → τ → MaybeReduced ρ) (acc : ρ) (input : τ),
      dedupeStep g ⟨none, acc⟩ input
        = updateValue (fun r v => { r with value := v })
            ⟨some input, acc⟩ (g acc input)) ∧
    dedupeRun ([1, 2, 2, 3, 3, 3] : List Nat) = [1, 2, 3] ∧
    dedupeRun ([1, 2, 1] : List Nat) = [1, 2, 1] := by
  refine ⟨dedupe_run_spec xs, ?_, by decide, by decide⟩
  intro ρ g acc input
  simp [dedupeStep]

/-! ### Helper lemmas about `takeWhile` and `dropWhile` -/

theorem takeWhile_run_aux {τ : Type} (pred : τ → Bool) :
    ∀ (xs acc : List τ),
      (reduceCounted (fun s x => takeWhileStep collectStep pred s x) acc xs).1
        = acc ++ xs.takeWhile pred := by
  intro xs
  induction xs with
  | nil => intro acc; simp [reduceCounted_nil]
  | cons x xs ih =>
    intro acc
    by_cases hp : pred x
    · have h1 : takeWhileStep collectStep pred acc x = .plain (acc ++ [x]) := by
        simp [takeWhileStep, collectStep, hp]
      rw [reduceCounted_cons_plain xs h1, ih (acc ++ [x])]
      simp [List.takeWhile_cons, hp]
    · have h1 : takeWhileStep collectStep pred acc x = .reduced acc := by
        simp [takeWhileStep, hp]
      rw [reduceCounted_cons_reduced xs h1]
      simp [List.takeWhile_cons, hp]

theorem dropWhile_run_done_aux {τ : Type} (pred : τ → Bool) :
    ∀ (xs acc : List τ),
      (reduceCounted (fun s x => dropWhileStep collectStep pred s x)
        ⟨acc, true⟩ xs).1.value = acc ++ xs := by
  intro xs
  induction xs with
  | nil => intro acc; simp [reduceCounted_nil]
  | cons x xs ih =>
    intro acc
    have h1 : dropWhileStep collectStep pred ⟨acc, true⟩ x
        = .plain ⟨acc ++ [x], true⟩ := by
      simp [dropWhileStep, updateValue, collectStep]
    rw [reduceCounted_cons_plain xs h1, ih (acc ++ [x])]
    simp

theorem dropWhile_run_aux {τ : Type} (pred : τ → Bool) :
    ∀ (xs acc : List τ),
      (reduceCounted (fun s x => dropWhileStep collectStep pred s x)
        ⟨acc, false⟩ xs).1.value = acc ++ xs.dropWhile pred := by
  intro xs
  induction xs with
  | nil => intro acc; simp [reduceCounted_nil]
  | cons x xs ih =>
    intro acc
    by_cases hp : pred x
    · have h1 : dropWhileStep collectStep pred ⟨acc, false⟩ x
          = .plain ⟨acc, false⟩ := by
        simp [dropWhileStep, hp]
      rw [reduceCounted_cons_plain xs h1, ih acc]
      simp [List.dropWhile_cons, hp]
    · have h1 : dropWhileStep collectStep pred ⟨acc, false⟩ x
          = .plain ⟨acc ++ [x], true⟩ := by
        simp [dropWhileStep, hp, updateValue, collectStep]
      rw [reduceCounted_cons_plain xs h1, dropWhile_run_done_aux pred xs (acc ++ [x])]
      simp [List.dropWhile_cons, hp]

/-! ### C8 -/

/-- C8: `takeWhile(pred)` yields exactly the elements strictly before the
first index at which `pred` fails (the failing element is dropped, not
forwarded), `dropWhile(pred)` yields exactly the elements at or after
that index including the triggering one, and their concatenation over the
same input is the input: they partition it at the same boundary. -/
theorem takeWhile_dropWhile_partition {τ : Type} (pred : τ → Bool)
    (xs : List τ) :
    takeWhileRun pred xs = xs.takeWhile pred ∧
    dropWhileRun pred xs = xs.dropWhile pred ∧
    takeWhileRun pred xs ++ dropWhileRun pred xs = xs := by
  have h1 : takeWhileRun pred xs = xs.takeWhile pred := by
    simpa [takeWhileRun] using takeWhile_run_aux pred xs []
  have h2 : dropWhileRun pred xs = xs.dropWhile pred := by
    simpa [dropWhileRun, dropWhileResult, dropWhileInit]
      using dropWhile_run_aux pred xs []
  exact ⟨h1, h2, by
    rw [h1, h2]; exact List.takeWhile_append_dropWhile pred xs⟩

/-! ### Helper lemmas about the reduction signal -/

theorem isReduced_updateValue {W α : Type} (setValue : W → α → W) (w : W)
    (m : MaybeReduced α) : isReduced (updateValue setValue w m) = isReduced m := by
  cases m <;> simp [updateValue, isReduced]

theorem isReduced_mapUnreduced {α : Type} (g : α → α) (m : MaybeReduced α) :
    isReduced (mapUnreduced g m) = isReduced m := by
  cases m <;> simp [mapUnreduced, isReduced]

theorem isReduced_ensureReduced {α : Type} (m : MaybeReduced α) :
    isReduced (ensureReduced m) = true := by
  cases m <;> simp [ensureReduced, isReduced]

/-! ### C3 -/

/-- C3: for every stage in the catalog, a step whose downstream step call
returns a signaled result returns a signaled result itself, making no
further downstream calls in that step invocation (for the stages that can
call downstream more than once — interpose, flatMap — the result equals
the first signaled call's result, for any downstream whatsoever); and
wrapping an already-signaled value never signals it a second time:
`ensureReduced` is the identity on signaled values and `updateValue` of a
signaled value is signaled exactly once, with only the payload updated. -/
theorem reduced_propagation :
    (∀ (α : Type) (v : α), ensureReduced (.reduced v) = .reduced v) ∧
    (∀ (α W : Type) (setValue : W → α → W) (w : W) (v : α),
      updateValue setValue w (.reduced v) = .reduced (setValue w v)) ∧
    (∀ (ρ τ υ : Type) (g : ρ → υ → MaybeReduced ρ) (f : τ → υ) (r : ρ) (x : τ),
      isReduced (g r (f x)) = true → isReduced (mapStep g f r x) = true) ∧
    (∀ (ρ τ : Type) (g : ρ → τ → MaybeReduced ρ) (p : τ → Bool) (r : ρ) (x : τ),
      p x = true → isReduced (g r x) = true →
      isReduced (filterStep g p r x) = true) ∧
    (∀ (ρ τ : Type) (g : ρ → τ → MaybeReduced ρ) (p : τ → Bool) (r : ρ) (x : τ),
      p x = false → isReduced (g r x) = true →
      isReduced (removeStep g p r x) = true) ∧
    (∀ (ρ τ υ : Type) (g : ρ → υ → MaybeReduced ρ) (f : τ → Option υ) (r : ρ)
      (x : τ) (y : υ), f x = some y → isReduced (g r y) = true →
      isReduced (keepStep g f r x) = true) ∧
    (∀ (ρ τ : Type) [DecidableEq τ] (g : ρ → τ → MaybeReduced ρ)
      (st : DedupeState ρ τ) (x : τ), some x ≠ st.last →
      isReduced (g st.value x) = true → isReduced (dedupeStep g st x) = true) ∧
    (∀ (ρ τ : Type) (g : ρ → τ → MaybeReduced ρ) (n : Int) (i : Nat) (r : ρ)
      (x : τ), ¬(i : Int) < n → isReduced (g r x) = true →
      isReduced (dropStep g n i r x).2 = true) ∧
    (∀ (ρ τ : Type) (g : ρ → τ → MaybeReduced ρ) (p : τ → Bool)
      (st : DropWhileState ρ) (x : τ),
      (st.isDoneDropping = true ∨ p x = false) →
      isReduced (g st.value x) = true →
      isReduced (dropWhileStep g p st x) = true) ∧
    (∀ (ρ τ : Type) (g : ρ → τ → MaybeReduced ρ) (n : Int) (i : Nat) (r : ρ)
      (x : τ), isReduced (g r x) = true →
      isReduced (takeStep g n i r x).2 = true) ∧
    (∀ (ρ τ : Type) (g : ρ → τ → MaybeReduced ρ) (n : Int)
      (st : TakeNthState ρ) (x : τ), (st.i : Int) % n = 0 →
      isReduced (g st.value x) = true →
      isReduced (takeNthStep g n st x) = true) ∧
    (∀ (ρ τ : Type) (g : ρ → τ → MaybeReduced ρ) (p : τ → Bool) (r : ρ) (x : τ),
      isReduced (g r x) = true → isReduced (takeWhileStep g p r x) = true) ∧
    (∀ (ρ τ : Type) (g : ρ → List τ → MaybeReduced ρ) (n : Int) (buf : List τ)
      (r : ρ) (x : τ), ((buf ++ [x]).length : Int) = n →
      isReduced (g r (buf ++ [x])) = true →
      isReduced (partitionAllStep g n buf r x).2 = true) ∧
    (∀ (ρ κ τ : Type) [DecidableEq κ] (g : ρ → List τ → MaybeReduced ρ)
      (f : τ → κ) (value : ρ) (buf : List τ) (k : κ) (x : τ), k ≠ f x →
      isReduced (g value buf) = true →
      isReduced (partitionByStep g f ⟨value, buf, some k⟩ x) = true) ∧
    (∀ (ρ τ : Type) (g : ρ → τ → MaybeReduced ρ) (sep : τ) (r : ρ) (x : τ)
      (v : ρ), g r sep = .reduced v →
      interposeStep g sep true r x = (true, .reduced v)) ∧
    (∀ (ρ υ : Type) (g : ρ → υ → MaybeReduced ρ) (r : ρ) (y : υ) (ys : List υ)
      (v : ρ), g r y = .reduced v →
      reduceWithFunction g r (y :: ys) = .reduced v) ∧
    (∀ (ρ τ υ : Type) (g : ρ → υ → MaybeReduced ρ) (f : τ → List υ) (r : ρ)
      (x : τ), isReduced (reduceWithFunction g r (f x)) = true →
      isReduced (flatMapStep g f r x) = true) := by
  refine ⟨?_, ?_, ?_, ?_, ?_, ?_, ?_, ?_, ?_, ?_, ?_, ?_, ?_, ?_, ?_, ?_, ?_⟩
  · intro α v; rfl
  · intro α W setValue w v; rfl
  · intro ρ τ υ g f r x h
    exact h
  · intro ρ τ g p r x hp h
    simpa [filterStep, hp] using h
  · intro ρ τ g p r x hp h
    simpa [removeStep, filterStep, hp] using h
  · intro ρ τ υ g f r x y hf h
    simpa [keepStep, hf] using h
  · intro ρ τ inst g st x hne h
    simpa [dedupeStep, hne, isReduced_updateValue] using h
  · intro ρ τ g n i r x hge h
    simpa [dropStep, hge] using h
  · intro ρ τ g p st x hcond h
    by_cases hd : st.isDoneDropping = true
    · simpa [dropWhileStep, hd, isReduced_updateValue] using h
    · have hp : p x = false := by
        rcases hcond with hc | hc
        · exact absurd hc hd
        · exact hc
      simpa [dropWhileStep, hd, hp, isReduced_updateValue] using h
  · intro ρ τ g n i r x h
    by_cases hn : n ≤ 0
    · simp [takeStep, hn, isReduced]
    · by_cases hi : (i : Int) < n - 1
      · simpa [takeStep, hn, hi] using h
      · simp [takeStep, hn, hi, isReduced_ensureReduced]
  · intro ρ τ g n st x hmod h
    simpa [takeNthStep, hmod, isReduced_updateValue] using h
  · intro ρ τ g p r x h
    by_cases hp : p x
    · simpa [takeWhileStep, hp] using h
    · simp [takeWhileStep, hp, isReduced]
  · intro ρ τ g n buf r x hfull h
    have hstep : partitionAllStep g n buf r x = ([], g r (buf ++ [x])) := by
      simp only [partitionAllStep]
      rw [if_pos hfull]
    rw [hstep]
    exact h
  · intro ρ κ τ inst g f value buf k x hk h
    simpa [partitionByStep, hk, isReduced_mapUnreduced, isReduced_updateValue]
      using h
  · intro ρ τ g sep r x v hsep
    simp [interposeStep, hsep]
  · intro ρ υ g r y ys v hy
    simp [reduceWithFunction, hy]
  · intro ρ τ υ g f r x h
    exact h

/-- C3, witness: selected clauses of the theorem applied at concrete
downstreams that signal. -/
theorem reduced_propagation_witness :
    isReduced (mapStep
      (fun (acc : List Nat) (x : Nat) => MaybeReduced.reduced (acc ++ [x]))
      (fun n => n + 1) [] 0) = true ∧
    interposeStep
      (fun (acc : List Nat) (x : Nat) => MaybeReduced.reduced (acc ++ [x]))
      5 true [] 9 = (true, .reduced [5]) ∧
    ensureReduced (MaybeReduced.reduced (3 : Nat)) = .reduced 3 := by
  refine ⟨?_, ?_, ?_⟩
  · exact reduced_propagation.2.2.1 (List Nat) Nat Nat
      (fun acc x => MaybeReduced.reduced (acc ++ [x])) (fun n => n + 1) [] 0 rfl
  · exact reduced_propagation.2.2.2.2.2.2.2.2.2.2.2.2.2.2.1 (List Nat) Nat
      (fun acc x => MaybeReduced.reduced (acc ++ [x])) 5 [] 9 [5] rfl
  · exact reduced_propagation.1 Nat 3

/-! ### C5 -/

/-- C5: `partitionAll(n)` and `takeNth(n)` with `n` zero or negative fail
at construction time with the corresponding configuration error, before
any stage is built (the factory returns the error instead of a stage
configuration); with `n ≥ 1` construction succeeds, returning the
validated configuration. -/
theorem factory_validation (n : Int) :
    (n = 0 → partitionAll n = .error "Size in partitionAll() cannot be 0" ∧
      takeNth n = .error "Step in takeNth() cannot be 0") ∧
    (n < 0 → partitionAll n = .error "Size in partitionAll() cannot be negative" ∧
      takeNth n = .error "Step in takeNth() cannot be negative") ∧
    (1 ≤ n → partitionAll n = .ok n ∧ takeNth n = .ok n) := by
  refine ⟨?_, ?_, ?_⟩
  · intro h
    constructor <;> simp [partitionAll, takeNth, h]
  · intro h
    have h0 : ¬n = 0 := by omega
    constructor <;> simp [partitionAll, takeNth, h, h0]
  · intro h
    have h0 : ¬n = 0 := by omega
    have h1 : ¬n < 0 := by omega
    constructor <;> simp [partitionAll, takeNth, h0, h1]

/-- C5, witness: the theorem applied at `n = 0`, `n = -2`, `n = 3`,
`n = 1`. -/
theorem factory_validation_witness :
    partitionAll 0 = .error "Size in partitionAll() cannot be 0" ∧
    takeNth (-2) = .error "Step in takeNth() cannot be negative" ∧
    partitionAll 3 = .ok 3 ∧ takeNth 1 = .ok 1 :=
  ⟨((factory_validation 0).1 rfl).1,
    ((factory_validation (-2)).2.1 (by norm_num)).2,
    ((factory_validation 3).2.2 (by norm_num)).1,
    ((factory_validation 1).2.2 (by norm_num)).2⟩

/-! ### C9 -/

/-- C9: the element counter of `Drop`, the `isStarted` flag of
`Interpose`, and the pending buffer of `PartitionAll` live on the
transformer instance: each stage's `init` returns a fresh downstream
accumulator while leaving the instance state unchanged, so a chain that
completed one traversal does not begin a second traversal in its initial
state — a `drop(1)` chain ends its first traversal with counter `2` and
its second traversal over the same input drops nothing, and an
`interpose(0)` chain ends started and prepends a separator before the
first element of its second traversal. -/
theorem instance_state_persistence :
    (∀ (ρ : Type) (xfInit : ρ) (i : Nat), dropInit i xfInit = (i, xfInit)) ∧
    (∀ (ρ : Type) (xfInit : ρ) (b : Bool), interposeInit b xfInit = (b, xfInit)) ∧
    (∀ (ρ τ : Type) (xfInit : ρ) (buf : List τ),
      partitionAllInit buf xfInit = (buf, xfInit)) ∧
    dropTraverse 1 0 ([10, 20] : List Nat) = (2, [20]) ∧
    dropTraverse 1 (dropTraverse 1 0 ([10, 20] : List Nat)).1 [10, 20]
      = (4, [10, 20]) ∧
    (dropTraverse 1 0 ([10, 20] : List Nat)).1 ≠ 0 ∧
    interposeTraverse 0 false ([1, 2] : List Nat) = (true, [1, 0, 2]) ∧
    interposeTraverse 0 (interposeTraverse 0 false ([1, 2] : List Nat)).1 [1, 2]
      = (true, [0, 1, 0, 2]) ∧
    (interposeTraverse 0 false ([1, 2] : List Nat)).1 ≠ false := by
  refine ⟨?_, ?_, ?_, by decide, by decide, by decide, by decide, by decide,
    by decide⟩
  · intro ρ xfInit i; rfl
  · intro ρ xfInit b; rfl
  · intro ρ τ xfInit buf; rfl

/-! ### C10 -/

/-- A downstream step that logs each group it receives and signals
termination on every call. -/
def pbSignalStep (log : List (DownstreamEvent Nat)) (grp : List Nat) :
    MaybeReduced (List (DownstreamEvent Nat)) :=
  .reduced (log ++ [.stepCall grp])

/-- End-to-end `partitionBy(id)` run over `[1,1,2]` against a downstream
that signals on its first step call, recording every downstream call. -/
def pbTerminatingLog : List (DownstreamEvent Nat) :=
  partitionByResult pbSignalStep logResult
    (reduceCounted (fun s x => partitionByStep pbSignalStep (fun n : Nat => n) s x)
      (partitionByInit []) [1, 1, 2]).1

/-- C10: when the downstream step performed for a key-change flush of
`partitionBy(f)` returns a signaled result, the triggering input is still
appended to the now-empty buffer and the step returns a signaled result
(for any downstream whatsoever); the subsequent finish performs exactly
one additional downstream step call with that leftover buffer before
delegating to the downstream finish — so over `[1,1,2]` with a downstream
that signals on its first flush, the downstream still receives the group
`[2]` after it signaled, immediately before its finish. -/
theorem partitionBy_flush_after_signal :
    (∀ (ρ κ τ : Type) [DecidableEq κ] (g : ρ → List τ → MaybeReduced ρ)
      (f : τ → κ) (value : ρ) (buf : List τ) (k : κ) (x : τ) (v : ρ),
      k ≠ f x → g value buf = .reduced v →
      partitionByStep g f ⟨value, buf, some k⟩ x
        = .reduced ⟨v, [x], some (f x)⟩) ∧
    (∀ (κ τ : Type) (st : PartitionByState (List (DownstreamEvent τ)) κ τ),
      st.buffer ≠ [] →
      partitionByResult logStep logResult st
        = st.value ++ [.stepCall st.buffer, .finishCall]) ∧
    pbTerminatingLog = [.stepCall [1, 1], .stepCall [2], .finishCall] := by
  refine ⟨?_, ?_, by decide⟩
  · intro ρ κ τ inst g f value buf k x v hk hg
    simp [partitionByStep, hk, hg, updateValue, mapUnreduced]
  · intro κ τ st hbuf
    have hpos : st.buffer.length > 0 := List.length_pos.mpr hbuf
    simp [partitionByResult, hpos, logStep, logResult, unreduced]

/-- C10, witness: the flush clause applied at the concrete key-change
step of the `[1,1,2]` scenario, followed by its finish. -/
theorem partitionBy_flush_after_signal_witness :
    partitionByStep pbSignalStep (fun n : Nat => n)
      ⟨[], [1, 1], some 1⟩ 2 = .reduced ⟨[.stepCall [1, 1]], [2], some 2⟩ ∧
    partitionByResult logStep logResult
      (⟨[.stepCall [1, 1]], [2], some 2⟩ :
        PartitionByState (List (DownstreamEvent Nat)) Nat Nat)
      = [.stepCall [1, 1], .stepCall [2], .finishCall] := by
  constructor
  · exact partitionBy_flush_after_signal.1 (List (DownstreamEvent Nat)) Nat Nat
      pbSignalStep (fun n => n) [] [1, 1] 1 2 [.stepCall [1, 1]]
      (by decide) rfl
  · have h := partitionBy_flush_after_signal.2.1 Nat Nat
      ⟨[.stepCall [1, 1]], [2], some 2⟩ (by decide)
    simpa using h

end Transducist
